import Mathlib

/-!
Verification of the buffer pool core of the scudb storage engine:
a shallow embedding of `lru_replacer.cpp`, `extendible_hash.cpp` and
`buffer_pool_manager.cpp`, followed by theorems settling the spec claims.

Modelling conventions:
* `std::map<K, V>` bucket contents and the disk image become association
  lists with unique keys (`alookup` / `aupsert` / `aerase`).
* `shared_ptr<Bucket>` aliasing in the hash directory is modelled by a
  `store` of buckets addressed by numeric ids; the directory holds ids, so
  an in-place mutation of a bucket is visible through every directory slot
  that shares it, exactly as with shared pointers.
* The LRU doubly linked list together with its `value -> node` map is
  modelled as a duplicate-free list, most recently touched value first.
* `Page*` values stored in the buffer pool page table become `Option Nat`
  (a nullable index into the frame array), and disk-manager calls are
  recorded in an explicit trace.
* The unbounded `for(;;)` loop of `ExtendibleHash::Insert` is given a fuel
  parameter; `none` means the loop did not finish within the fuel.
-/

set_option maxRecDepth 4000

namespace Scudb

/-- Lookup in an association list, mirroring `kmap.find(key)`. -/
def alookup {K V : Type} [DecidableEq K] (k : K) : List (K × V) → Option V
  | [] => none
  | (k1, v) :: rest => if k = k1 then some v else alookup k rest

/-- Insert-or-assign, mirroring `kmap[key] = value` on `std::map`. -/
def aupsert {K V : Type} [DecidableEq K] (k : K) (v : V) : List (K × V) → List (K × V)
  | [] => [(k, v)]
  | (k1, v1) :: rest => if k = k1 then (k, v) :: rest else (k1, v1) :: aupsert k v rest

/-- Erase a key, mirroring `kmap.erase(key)` on `std::map`. -/
def aerase {K V : Type} [DecidableEq K] (k : K) (l : List (K × V)) : List (K × V) :=
  l.filter (fun e => decide (e.1 ≠ k))

theorem alookup_aupsert_self {K V : Type} [DecidableEq K] (k : K) (v : V) (l : List (K × V)) :
    alookup k (aupsert k v l) = some v := by
  induction l with
  | nil => simp [aupsert, alookup]
  | cons e rest ih =>
      obtain ⟨k1, v1⟩ := e
      by_cases h : k = k1
      · simp [aupsert, h, alookup]
      · simp [aupsert, h, alookup, ih]

theorem alookup_aerase_self {K V : Type} [DecidableEq K] (k : K) (l : List (K × V)) :
    alookup k (aerase k l) = none := by
  induction l with
  | nil => simp [aerase, alookup]
  | cons e rest ih =>
      obtain ⟨k1, v1⟩ := e
      by_cases h : k1 = k
      · simpa [aerase, h] using ih
      · have hne : k ≠ k1 := fun hk => h hk.symm
        simpa [aerase, h, alookup, hne] using ih

/-! ### LRU replacer (`lru_replacer.cpp`)

The doubly linked list plus `map` is modelled as a duplicate-free list of
values, head = most recently touched. -/

/-- `LRUReplacer::Insert`: detach the value if present, then splice it to
the front of the list. -/
def lruInsert {T : Type} [DecidableEq T] (v : T) (l : List T) : List T :=
  v :: l.filter (fun x => decide (x ≠ v))

/-- `LRUReplacer::Victim`: fail on an empty replacer, otherwise remove the
tail node and return its value. -/
def lruVictim {T : Type} : List T → Option (T × List T)
  | [] => none
  | x :: xs => some ((x :: xs).getLast (List.cons_ne_nil x xs), (x :: xs).dropLast)

/-- `LRUReplacer::Erase`: detach the value if present (the boolean result
of the source is not used by the buffer pool manager). -/
def lruErase {T : Type} [DecidableEq T] (v : T) (l : List T) : List T :=
  l.filter (fun x => decide (x ≠ v))

/-- `LRUReplacer::Size`. -/
def lruSize {T : Type} (l : List T) : Nat := l.length

/-- An operation applied to the replacer by its callers. -/
inductive LruOp (T : Type) where
  | ins (v : T)
  | er (v : T)
deriving DecidableEq

/-- Apply one replacer operation. -/
def applyLruOp {T : Type} [DecidableEq T] (s : List T) : LruOp T → List T
  | .ins v => lruInsert v s
  | .er v => lruErase v s

/-- The replacer state reached from the empty replacer by a trace of
Insert/Erase operations. -/
def lruState {T : Type} [DecidableEq T] (ops : List (LruOp T)) : List T :=
  ops.foldl applyLruOp []

/-- Position of the most recent `Insert` of `v`, counted from the end of
the (reversed) trace: `some 0` means `v` was inserted by the very last
operation; `none` means `v` was never inserted. -/
def lastInsertRank {T : Type} [DecidableEq T] (v : T) : List (LruOp T) → Option Nat
  | [] => none
  | .ins w :: ops => if v = w then some 0 else (lastInsertRank v ops).map (· + 1)
  | .er _ :: ops => (lastInsertRank v ops).map (· + 1)

/-- Recency rank of `v` after trace `ops`: smaller means more recently
inserted. -/
def mruRank {T : Type} [DecidableEq T] (ops : List (LruOp T)) (v : T) : Option Nat :=
  lastInsertRank v ops.reverse

/-! ### Extendible hash index (`extendible_hash.cpp`)

The directory `buckets` of the source is a `vector<shared_ptr<Bucket>>`;
here it is a list of ids into `store`, so that several directory slots can
share (alias) one bucket. -/

/-- A hash bucket: `localDepth` plus a `std::map` of entries. -/
structure Bucket (K V : Type) where
  localDepth : Nat
  kmap : List (K × V)
deriving DecidableEq

instance {K V : Type} : Inhabited (Bucket K V) := ⟨⟨0, []⟩⟩

/-- The `ExtendibleHash` state: global depth, fixed bucket capacity, the
bucket counter, the directory of bucket ids, and the bucket store. -/
structure ExtHash (K V : Type) where
  globalDepth : Nat
  bucketSize : Nat
  bucketNum : Nat
  buckets : List Nat
  store : List (Bucket K V)
deriving DecidableEq

/-- The constructor: depth 0, one empty bucket, directory of length 1. -/
def ExtHash.init (K V : Type) (size : Nat) : ExtHash K V :=
  { globalDepth := 0, bucketSize := size, bucketNum := 1,
    buckets := [0], store := [⟨0, []⟩] }

/-- `getIdx`: the low `globalDepth` bits of the key's hash
(`HashKey(key) & ((1 << globalDepth) - 1)`). -/
def getIdx {K V : Type} (hash : K → Nat) (s : ExtHash K V) (key : K) : Nat :=
  hash key % 2 ^ s.globalDepth

/-- The bucket referenced by directory slot `i`. -/
def bucketAt {K V : Type} (s : ExtHash K V) (i : Nat) : Bucket K V :=
  s.store.getD (s.buckets.getD i 0) default

/-- `ExtendibleHash::Find` as a partial map. -/
def ExtHash.find {K V : Type} [DecidableEq K] (hash : K → Nat) (key : K) (s : ExtHash K V) :
    Option V :=
  alookup key (bucketAt s (getIdx hash s key)).kmap

/-- `ExtendibleHash::Find` with the C++ reference out-parameter made
explicit: the result pairs the returned boolean with the final value of
the out-parameter, which the code assigns only in the found branch. -/
def ExtHash.findRef {K V : Type} [DecidableEq K] (hash : K → Nat) (key : K) (s : ExtHash K V)
    (value : V) : Bool × V :=
  match alookup key (bucketAt s (getIdx hash s key)).kmap with
  | none => (false, value)
  | some v => (true, v)

/-- `ExtendibleHash::Remove`: erase the key from its bucket if present,
returning prior presence. -/
def ExtHash.remove {K V : Type} [DecidableEq K] (hash : K → Nat) (key : K) (s : ExtHash K V) :
    Bool × ExtHash K V :=
  let index := getIdx hash s key
  let bid := s.buckets.getD index 0
  let cur := s.store.getD bid default
  match alookup key cur.kmap with
  | none => (false, s)
  | some _ =>
      (true, { s with store := s.store.set bid { cur with kmap := aerase key cur.kmap } })

/-- The body of one split iteration of `ExtendibleHash::Insert`, acting on
the bucket with id `bid`: increment the bucket's local depth, double the
directory if the new local depth exceeds the global depth, allocate a new
bucket, move the entries whose hash has the `1 << (localDepth - 1)` bit
set, and repoint every directory slot that referenced the old bucket and
has that bit set in its index. -/
def splitBucket {K V : Type} (hash : K → Nat) (s : ExtHash K V) (bid : Nat) : ExtHash K V :=
  let cur := s.store.getD bid default
  let newLocal := cur.localDepth + 1
  let dir1 := if s.globalDepth < newLocal then s.buckets ++ s.buckets else s.buckets
  let g1 := if s.globalDepth < newLocal then s.globalDepth + 1 else s.globalDepth
  let maskBit := newLocal - 1
  let newId := s.store.length
  let kept := cur.kmap.filter (fun e => ! Nat.testBit (hash e.1) maskBit)
  let moved := cur.kmap.filter (fun e => Nat.testBit (hash e.1) maskBit)
  let store1 := s.store.set bid ⟨newLocal, kept⟩ ++ [⟨newLocal, moved⟩]
  let dir2 := (List.range dir1.length).map fun j =>
    if dir1.getD j 0 = bid ∧ Nat.testBit j maskBit then newId else dir1.getD j 0
  { globalDepth := g1, bucketSize := s.bucketSize, bucketNum := s.bucketNum + 1,
    buckets := dir2, store := store1 }

/-- One split iteration of `ExtendibleHash::Insert`: split the bucket the
inserting key is currently routed to. -/
def splitStep {K V : Type} (hash : K → Nat) (key : K) (s : ExtHash K V) : ExtHash K V :=
  splitBucket hash s (s.buckets.getD (getIdx hash s key) 0)

/-- `ExtendibleHash::Insert`: the `for(;;)` loop with explicit fuel.
Each iteration either upserts into the target bucket when it has room or
already holds the key, or splits and retries; `none` means the fuel ran
out before the loop finished. -/
def insertLoop {K V : Type} [DecidableEq K] (hash : K → Nat) (key : K) (value : V) :
    Nat → ExtHash K V → Option (ExtHash K V)
  | 0, _ => none
  | fuel + 1, s =>
    let index := getIdx hash s key
    let bid := s.buckets.getD index 0
    let cur := s.store.getD bid default
    if cur.kmap.length < s.bucketSize ∨ (alookup key cur.kmap).isSome then
      some { s with store := s.store.set bid { cur with kmap := aupsert key value cur.kmap } }
    else
      insertLoop hash key value fuel (splitStep hash key s)

/-- A sequence of `Insert` calls, each with its own fuel. -/
def applyInserts {K V : Type} [DecidableEq K] (hash : K → Nat) :
    List (K × V × Nat) → ExtHash K V → Option (ExtHash K V)
  | [], s => some s
  | (k, v, fuel) :: rest, s =>
      match insertLoop hash k v fuel s with
      | none => none
      | some s1 => applyInserts hash rest s1

/-! #### List access helpers -/

theorem getD_set_self {α : Type} (l : List α) (i : Nat) (a d : α) (h : i < l.length) :
    (l.set i a).getD i d = a := by
  rw [List.getD_eq_getElem _ d (by simpa using h)]
  simp [List.getElem_set_self]

theorem getD_set_ne {α : Type} (l : List α) (i j : Nat) (a d : α) (hne : j ≠ i) :
    (l.set j a).getD i d = l.getD i d := by
  by_cases h : i < l.length
  · rw [List.getD_eq_getElem _ d (by simpa using h), List.getD_eq_getElem l d h]
    exact List.getElem_set_ne hne _
  · rw [List.getD_eq_default _ d (by simpa using Nat.le_of_not_lt h),
      List.getD_eq_default l d (Nat.le_of_not_lt h)]

theorem getD_mem {α : Type} (l : List α) (i : Nat) (d : α) (h : i < l.length) :
    l.getD i d ∈ l := by
  rw [List.getD_eq_getElem l d h]
  exact List.getElem_mem h

theorem getD_append_left {α : Type} (l m : List α) (i : Nat) (d : α) (h : i < l.length) :
    (l ++ m).getD i d = l.getD i d := by
  rw [List.getD_eq_getElem _ d (by simp; omega), List.getD_eq_getElem l d h]
  exact List.getElem_append_left h

theorem getD_self_append {α : Type} (l : List α) (j : Nat) (d : α)
    (h : j < l.length + l.length) :
    (l ++ l).getD j d = l.getD (j % l.length) d := by
  rcases Nat.lt_or_ge j l.length with hj | hj
  · rw [getD_append_left l l j d hj, Nat.mod_eq_of_lt hj]
  · have hl : 0 < l.length := Nat.pos_of_ne_zero (by rintro h0; omega)
    have hsub : j - l.length < l.length := by omega
    rw [List.getD_eq_getElem _ d (by simp; omega),
      List.getD_eq_getElem l d (by rw [Nat.mod_eq_sub_mod hj, Nat.mod_eq_of_lt hsub]; exact hsub)]
    rw [List.getElem_append_right hj]
    congr 1
    rw [Nat.mod_eq_sub_mod hj, Nat.mod_eq_of_lt hsub]

/-! #### Well-formedness of the hash directory -/

/-- The directory has length `2^globalDepth` and every slot holds a valid
bucket id. -/
def dirWF {K V : Type} (s : ExtHash K V) : Prop :=
  s.buckets.length = 2 ^ s.globalDepth ∧ ∀ b ∈ s.buckets, b < s.store.length

theorem getIdx_lt {K V : Type} (hash : K → Nat) (s : ExtHash K V) (key : K) :
    getIdx hash s key < 2 ^ s.globalDepth :=
  Nat.mod_lt _ (Nat.pos_pow_of_pos _ (by omega))

theorem splitBucket_wf {K V : Type} (hash : K → Nat) (s : ExtHash K V) (bid : Nat)
    (h : dirWF s) : dirWF (splitBucket hash s bid) := by
  obtain ⟨hlen, hwf⟩ := h
  constructor
  · simp only [splitBucket, List.length_map, List.length_range]
    split
    · rw [List.length_append, hlen, pow_succ]
      omega
    · exact hlen
  · intro b hb
    simp only [splitBucket, List.mem_map, List.mem_range] at hb
    obtain ⟨j, hj, hfb⟩ := hb
    simp only [splitBucket, List.length_append, List.length_set, List.length_cons,
      List.length_nil]
    by_cases hd : s.globalDepth < (s.store.getD bid default).localDepth + 1
    · rw [if_pos hd] at hfb hj
      split at hfb
      · omega
      · have hmem := getD_mem _ j 0 hj
        rw [hfb] at hmem
        have hb2 : b ∈ s.buckets := by
          rcases List.mem_append.mp hmem with h1 | h1 <;> exact h1
        have := hwf b hb2
        omega
    · rw [if_neg hd] at hfb hj
      split at hfb
      · omega
      · have hmem := getD_mem _ j 0 hj
        rw [hfb] at hmem
        have := hwf b hmem
        omega

theorem splitStep_wf {K V : Type} (hash : K → Nat) (key : K) (s : ExtHash K V)
    (h : dirWF s) : dirWF (splitStep hash key s) :=
  splitBucket_wf hash s _ h

/-! ### Buffer pool manager (`buffer_pool_manager.cpp`)

Frames are addressed by their index in the `pages_` array; a `Page*` is
therefore an `Option Nat` (`none` = null).  Disk-manager calls are logged
in a trace, and the disk image plus the allocation counter are part of the
state. -/

/-- `INVALID_PAGE_ID` sentinel for unbound frames. -/
def INVALID_PAGE_ID : Int := -1

/-- A page frame (`Page`): id, pin count, dirty flag, and the payload,
abstracted to a single number (`0` for zeroed memory). -/
structure Frame where
  page_id : Int
  pin_count : Int
  is_dirty : Bool
  data : Nat
deriving DecidableEq

instance : Inhabited Frame := ⟨⟨INVALID_PAGE_ID, 0, false, 0⟩⟩

/-- A call into the disk manager. -/
inductive DiskOp where
  | read (pid : Int)
  | write (pid : Int)
  | alloc (pid : Int)
  | dealloc (pid : Int)
deriving DecidableEq

/-- `std::hash<page_id_t>`: the id value cast to `size_t`. -/
def pageHash (p : Int) : Nat := (p % 2 ^ 64).toNat

/-- The buffer pool manager state: the frame array, the extendible-hash
page table (`page_id -> Page*`), the LRU replacer and free list of frame
indices, plus the disk image and the allocator counter. -/
structure BPM where
  frames : List Frame
  pageTable : ExtHash Int (Option Nat)
  replacer : List Nat
  freeList : List Nat
  diskData : List (Int × Nat)
  nextPageId : Int
deriving DecidableEq

/-- `BufferPoolManager::GetVictimPage`: pop the free list if non-empty,
otherwise ask the replacer for a victim, otherwise fail. -/
def getVictimPage (s : BPM) : Option Nat × BPM :=
  match s.freeList with
  | [] =>
      match lruVictim s.replacer with
      | none => (none, s)
      | some (f, r1) => (some f, { s with replacer := r1 })
  | f :: rest => (some f, { s with freeList := rest })

/-- `BufferPoolManager::FetchPage`.  The result is `none` when the page
table insert on the miss path ran out of fuel; otherwise it carries the
returned `Page*`, the new state, and the disk-op trace. -/
def fetchPage (fuel : Nat) (page_id : Int) (s : BPM) :
    Option (Option Nat × BPM × List DiskOp) :=
  let fr := ExtHash.findRef pageHash page_id s.pageTable none
  if fr.1 then
    -- 1.1: hit — pin and remove from the replacer
    let fidx := fr.2.getD 0
    let tar := s.frames.getD fidx default
    some (some fidx,
      { s with frames := s.frames.set fidx { tar with pin_count := tar.pin_count + 1 },
               replacer := lruErase fidx s.replacer }, [])
  else
    -- 1.2: miss — take a victim, write it back if dirty, rebind, read in
    match getVictimPage s with
    | (none, s1) => some (none, s1, [])
    | (some fidx, s1) =>
        let tar := s1.frames.getD fidx default
        let wtr : List DiskOp := if tar.is_dirty then [DiskOp.write tar.page_id] else []
        let s2 := if tar.is_dirty
          then { s1 with diskData := aupsert tar.page_id tar.data s1.diskData }
          else s1
        let pt1 := (ExtHash.remove pageHash tar.page_id s2.pageTable).2
        match insertLoop pageHash page_id (some fidx) fuel pt1 with
        | none => none
        | some pt2 =>
            let tar2 : Frame :=
              { page_id := page_id, pin_count := 1, is_dirty := false,
                data := (alookup page_id s2.diskData).getD 0 }
            some (some fidx,
              { s2 with pageTable := pt2, frames := s2.frames.set fidx tar2 },
              wtr ++ [DiskOp.read page_id])

/-- `BufferPoolManager::UnpinPage`: null-initialise the frame pointer,
look the page up, fail on null; set the dirty flag; fail if the pin count
is not positive; otherwise decrement it and re-enter the replacer at
zero. -/
def unpinPage (page_id : Int) (is_dirty : Bool) (s : BPM) : Bool × BPM :=
  let tar := (ExtHash.findRef pageHash page_id s.pageTable none).2
  match tar with
  | none => (false, s)
  | some fidx =>
      let f := s.frames.getD fidx default
      let f1 := { f with is_dirty := is_dirty }
      let s1 := { s with frames := s.frames.set fidx f1 }
      if f1.pin_count ≤ 0 then (false, s1)
      else
        let f2 := { f1 with pin_count := f1.pin_count - 1 }
        let s2 := { s1 with frames := s1.frames.set fidx f2 }
        if f2.pin_count = 0 then (true, { s2 with replacer := lruInsert fidx s2.replacer })
        else (true, s2)

/-- `BufferPoolManager::FlushPage`: fail on a missing frame or an INVALID
page id; write back when dirty and clear the flag. -/
def flushPage (page_id : Int) (s : BPM) : Bool × BPM × List DiskOp :=
  let tar := (ExtHash.findRef pageHash page_id s.pageTable none).2
  match tar with
  | none => (false, s, [])
  | some fidx =>
      let f := s.frames.getD fidx default
      if f.page_id = INVALID_PAGE_ID then (false, s, [])
      else if f.is_dirty then
        (true, { s with frames := s.frames.set fidx { f with is_dirty := false },
                        diskData := aupsert page_id f.data s.diskData },
         [DiskOp.write page_id])
      else (true, s, [])

/-- `BufferPoolManager::DeletePage`: refuse a pinned resident page; clean
up a resident unpinned one; always deallocate on disk and return true
otherwise. -/
def deletePage (page_id : Int) (s : BPM) : Bool × BPM × List DiskOp :=
  let tar := (ExtHash.findRef pageHash page_id s.pageTable none).2
  match tar with
  | some fidx =>
      let f := s.frames.getD fidx default
      if 0 < f.pin_count then (false, s, [])
      else
        let pt := (ExtHash.remove pageHash page_id s.pageTable).2
        let f1 := { f with is_dirty := false, data := 0 }
        (true,
         { s with replacer := lruErase fidx s.replacer,
                  pageTable := pt,
                  frames := s.frames.set fidx f1,
                  freeList := s.freeList ++ [fidx] },
         [DiskOp.dealloc page_id])
  | none => (true, s, [DiskOp.dealloc page_id])

/-- `BufferPoolManager::NewPage`.  The out-parameter `page_id` is returned
alongside the frame; `none` at the outer level means the page table insert
ran out of fuel. -/
def newPage (fuel : Nat) (s : BPM) :
    Option (Option (Nat × Int) × BPM × List DiskOp) :=
  match getVictimPage s with
  | (none, s1) => some (none, s1, [])
  | (some fidx, s1) =>
      let pid := s1.nextPageId
      let s2 := { s1 with nextPageId := pid + 1 }
      let tar := s2.frames.getD fidx default
      let wtr : List DiskOp := if tar.is_dirty then [DiskOp.write tar.page_id] else []
      let s3 := if tar.is_dirty
        then { s2 with diskData := aupsert tar.page_id tar.data s2.diskData }
        else s2
      let pt1 := (ExtHash.remove pageHash tar.page_id s3.pageTable).2
      match insertLoop pageHash pid (some fidx) fuel pt1 with
      | none => none
      | some pt2 =>
          let tar2 : Frame := { page_id := pid, pin_count := 1, is_dirty := false, data := 0 }
          some (some (fidx, pid),
            { s3 with pageTable := pt2, frames := s3.frames.set fidx tar2 },
            DiskOp.alloc pid :: wtr)

/-- The `BufferPoolManager` constructor: `pool_size` default frames, all on
the free list in array order, an empty page table and replacer. -/
def BPM.init (pool_size bucket_size : Nat) : BPM :=
  { frames := List.replicate pool_size default,
    pageTable := ExtHash.init Int (Option Nat) bucket_size,
    replacer := [], freeList := List.range pool_size,
    diskData := [], nextPageId := 0 }

/-- A pool of two frames after `NewPage` (allocating page 0, pinned),
`UnpinPage(0, true)` (now unpinned and dirty) and `FetchPage(0)` (pinned
again, still dirty): page 0 is resident in frame 0 with pin count 1 and
the dirty flag set. -/
def bpmDirty : BPM :=
  (fetchPage 9 0
    ((unpinPage 0 true
      ((newPage 9 (BPM.init 2 2)).getD (none, BPM.init 2 2, [])).2.1).2)).getD
    (none, BPM.init 2 2, []) |>.2.1

/-- A pool of two frames after `NewPage` (page 0, pinned) and
`UnpinPage(0, true)`: page 0 is resident in frame 0 with pin count 0. -/
def bpmUnpinned : BPM :=
  (unpinPage 0 true
    ((newPage 9 (BPM.init 2 2)).getD (none, BPM.init 2 2, [])).2.1).2

/-- A one-frame pool exhausted by a single `NewPage`: the free list and
the replacer are both empty and the only frame is pinned. -/
def bpmFull : BPM :=
  ((newPage 9 (BPM.init 1 2)).getD (none, BPM.init 1 2, [])).2.1

/-! ### Claims about the buffer pool manager -/

/-- C1: the claim says `UnpinPage(p, d)` leaves the frame's dirty flag as
the OR of its previous value and `d`, so a dirty frame stays dirty after
`UnpinPage(p, false)`.  The source instead overwrites the flag
(`tar->is_dirty_ = is_dirty`): in a pool where page 0 is resident in frame
0 with pin count 1 and the dirty flag set, `UnpinPage(0, false)` succeeds
and the frame comes out clean, losing the earlier dirty mark. -/
theorem unpinPage_overwrites_dirty_flag :
    ((bpmDirty.frames.getD 0 default).is_dirty = true ∧
     (bpmDirty.frames.getD 0 default).pin_count = 1 ∧
     (ExtHash.findRef pageHash 0 bpmDirty.pageTable none).2 = some 0) ∧
    (unpinPage 0 false bpmDirty).1 = true ∧
    ((unpinPage 0 false bpmDirty).2.frames.getD 0 default).is_dirty = false := by
  decide

/-- C2 counterexample: `DeletePage` on a page that is not resident returns
`true`, not `false` as the claim states — in the freshly constructed pool
no page is resident, yet `DeletePage(5)` succeeds. -/
theorem deletePage_not_resident_returns_true :
    (deletePage 5 (BPM.init 2 2)).1 = true := by decide

/-- C2 amended: for every page id that is not resident, `DeletePage`
leaves the pool state unchanged, calls the disk manager's
`DeallocatePage`, and returns `true`. -/
theorem deletePage_not_resident {s : BPM} {page_id : Int}
    (h : (ExtHash.findRef pageHash page_id s.pageTable none).2 = none) :
    deletePage page_id s = (true, s, [DiskOp.dealloc page_id]) := by
  simp only [deletePage]
  rw [h]

/-- C2 witness: the amended statement at the concrete non-resident page 5
of the fresh pool. -/
theorem deletePage_not_resident_witness :
    deletePage 5 (BPM.init 2 2) = (true, BPM.init 2 2, [DiskOp.dealloc 5]) :=
  deletePage_not_resident (by decide)

/-- C5: when the page table maps `page_id` to frame `fidx`, `FetchPage`
increments that frame's pin count, erases it from the replacer (a no-op
when absent), returns the very same frame, and issues no disk-manager
call at all. -/
theorem fetchPage_hit_no_io (fuel : Nat) {s : BPM} {page_id : Int} {fidx : Nat}
    (h : ExtHash.findRef pageHash page_id s.pageTable none = (true, some fidx)) :
    fetchPage fuel page_id s =
      some (some fidx,
        { s with
            frames := s.frames.set fidx
              { s.frames.getD fidx default with
                  pin_count := (s.frames.getD fidx default).pin_count + 1 },
            replacer := lruErase fidx s.replacer }, []) := by
  simp only [fetchPage]
  rw [h]
  rfl

/-- C5 witness: fetching the resident page 0 of `bpmDirty` returns frame 0
with the pin count raised from 1 to 2 and an empty disk trace. -/
theorem fetchPage_hit_no_io_witness :
    fetchPage 9 0 bpmDirty =
      some (some 0,
        { bpmDirty with
            frames := bpmDirty.frames.set 0
              { bpmDirty.frames.getD 0 default with
                  pin_count := (bpmDirty.frames.getD 0 default).pin_count + 1 },
            replacer := lruErase 0 bpmDirty.replacer }, []) :=
  fetchPage_hit_no_io 9 (by decide)

/-- C8: on a resident page whose pin count is already ≤ 0, `UnpinPage`
returns `false`, but the frame's dirty flag has nevertheless been set to
the caller's `is_dirty` argument before the failure return. -/
theorem unpinPage_failure_sets_dirty {s : BPM} {page_id : Int} {fidx : Nat} (d : Bool)
    (h : (ExtHash.findRef pageHash page_id s.pageTable none).2 = some fidx)
    (hpin : (s.frames.getD fidx default).pin_count ≤ 0) :
    unpinPage page_id d s =
      (false,
        { s with frames := s.frames.set fidx { s.frames.getD fidx default with is_dirty := d } }) := by
  have hnot : ¬ (0 : Int) < (s.frames.getD fidx default).pin_count := not_lt.mpr hpin
  simp only [unpinPage]
  rw [h]
  simp at hnot
  simp [hnot]

/-- C8 witness: in the pool where page 0 sits unpinned (pin count 0) in
frame 0, `UnpinPage(0, true)` fails yet flips the frame dirty. -/
theorem unpinPage_failure_sets_dirty_witness :
    unpinPage 0 true bpmUnpinned =
      (false,
        { bpmUnpinned with
            frames := bpmUnpinned.frames.set 0 { bpmUnpinned.frames.getD 0 default with is_dirty := true } }) :=
  unpinPage_failure_sets_dirty true (by decide) (by decide)

/-- C9: when the free list and the replacer are both empty, `NewPage`
returns null with the state untouched and an empty disk trace — in
particular the disk manager's `AllocatePage` is never called. -/
theorem newPage_pool_exhausted (fuel : Nat) {s : BPM}
    (h1 : s.freeList = []) (h2 : s.replacer = []) :
    newPage fuel s = some (none, s, []) := by
  obtain ⟨fr, pt, rep, free, dd, np⟩ := s
  simp only at h1 h2
  subst h1
  subst h2
  rfl

/-- C9 witness: exhausting the one-frame pool with a single `NewPage`
leaves no free or evictable frame, and a second `NewPage` returns null
without touching anything. -/
theorem newPage_pool_exhausted_witness :
    newPage 9 bpmFull = some (none, bpmFull, []) :=
  newPage_pool_exhausted 9 (by decide) (by decide)

/-- C10: a `Find` for an absent key answers `false` and leaves the
reference out-parameter exactly as the caller initialised it; the buffer
pool manager relies on this in `UnpinPage` by passing a null frame
pointer and testing it afterwards, so a non-resident page makes
`UnpinPage` fail with the state unchanged. -/
theorem find_absent_leaves_out_unchanged {K V : Type} [DecidableEq K]
    (hash : K → Nat) (key : K) (s : ExtHash K V) (v0 : V)
    (h : ExtHash.find hash key s = none) :
    ExtHash.findRef hash key s v0 = (false, v0) ∧
    ∀ (t : BPM) (pid : Int) (d : Bool),
      (ExtHash.findRef pageHash pid t.pageTable none).2 = none →
        unpinPage pid d t = (false, t) := by
  constructor
  · simp only [ExtHash.find] at h
    simp only [ExtHash.findRef, h]
  · intro t pid d ht
    simp only [unpinPage]
    rw [ht]

/-- C10 witness: key 5 is absent from the fresh pool's page table; `Find`
leaves the null out-parameter null and `UnpinPage(5, true)` fails without
effect. -/
theorem find_absent_leaves_out_unchanged_witness :
    (ExtHash.findRef pageHash 5 (BPM.init 2 2).pageTable none = (false, none) ∧
     ∀ (t : BPM) (pid : Int) (d : Bool),
       (ExtHash.findRef pageHash pid t.pageTable none).2 = none →
         unpinPage pid d t = (false, t)) ∧
    unpinPage 5 true (BPM.init 2 2) = (false, BPM.init 2 2) := by
  refine ⟨find_absent_leaves_out_unchanged pageHash 5 (BPM.init 2 2).pageTable none (by decide), ?_⟩
  exact (find_absent_leaves_out_unchanged pageHash 5 (BPM.init 2 2).pageTable none
    (by decide)).2 (BPM.init 2 2) 5 true (by decide)

/-! ### Claims about the extendible hash -/

theorem insertLoop_find {K V : Type} [DecidableEq K] (hash : K → Nat) (k : K) (v : V) :
    ∀ (fuel : Nat) (s s1 : ExtHash K V), dirWF s →
      insertLoop hash k v fuel s = some s1 →
      ExtHash.find hash k s1 = some v := by
  intro fuel
  induction fuel with
  | zero => intro s s1 _ h; simp [insertLoop] at h
  | succ fuel ih =>
      intro s s1 hwf h
      simp only [insertLoop] at h
      split at h
      · obtain rfl := Option.some.inj h
        have hidx : getIdx hash s k < s.buckets.length := by
          rw [hwf.1]; exact getIdx_lt hash s k
        have hbid : s.buckets.getD (getIdx hash s k) 0 < s.store.length :=
          hwf.2 _ (getD_mem _ _ 0 hidx)
        simp only [ExtHash.find, bucketAt, getIdx]
        rw [getD_set_self]
        · exact alookup_aupsert_self k v _
        · exact hbid
      · exact ih _ s1 (splitStep_wf hash k s hwf) h

theorem remove_find {K V : Type} [DecidableEq K] (hash : K → Nat) (key : K)
    (s : ExtHash K V) :
    ExtHash.find hash key (ExtHash.remove hash key s).2 = none := by
  simp only [ExtHash.remove]
  cases halk : alookup key (s.store.getD (s.buckets.getD (getIdx hash s key) 0) default).kmap with
  | none => simpa [ExtHash.find, bucketAt] using halk
  | some v =>
      have hbid : s.buckets.getD (getIdx hash s key) 0 < s.store.length := by
        by_contra hge
        rw [List.getD_eq_default _ _ (Nat.le_of_not_lt hge)] at halk
        have hd : (default : Bucket K V).kmap = [] := rfl
        rw [hd] at halk
        simp [alookup] at halk
      simp only [ExtHash.find, bucketAt, getIdx]
      rw [getD_set_self]
      · exact alookup_aerase_self key _
      · exact hbid

/-- C7: on any well-formed hash state, a terminating `Insert(k, v)`
followed by `Find(k, out w)` answers `true` with `w = v`, whatever the
out-parameter held before; and on any state, `Remove(key)` followed by
`Find(key, out w)` answers `false` and leaves `w` untouched. -/
theorem insert_then_find_and_remove_then_find {K V : Type} [DecidableEq K]
    (hash : K → Nat) (k : K) (v : V) (fuel : Nat) (s s1 : ExtHash K V)
    (hwf : dirWF s) (hins : insertLoop hash k v fuel s = some s1) :
    (∀ w0 : V, ExtHash.findRef hash k s1 w0 = (true, v)) ∧
    ∀ (t : ExtHash K V) (key : K) (w0 : V),
      ExtHash.findRef hash key (ExtHash.remove hash key t).2 w0 = (false, w0) := by
  constructor
  · intro w0
    have hf := insertLoop_find hash k v fuel s s1 hwf hins
    simp only [ExtHash.find] at hf
    simp only [ExtHash.findRef, hf]
  · intro t key w0
    have hr := remove_find hash key t
    simp only [ExtHash.find] at hr
    simp only [ExtHash.findRef, hr]

/-- C7 witness: inserting key 5 with value 7 into the fresh two-slot
table (one unit of fuel suffices) makes `Find(5)` answer `(true, 7)`, and
removing any key from any table makes the following `Find` miss. -/
theorem insert_then_find_and_remove_then_find_witness :
    (∀ w0 : Nat, ExtHash.findRef (fun n => n) 5
        { globalDepth := 0, bucketSize := 2, bucketNum := 1, buckets := [0],
          store := [⟨0, [(5, 7)]⟩] } w0 = (true, 7)) ∧
    ∀ (t : ExtHash Nat Nat) (key : Nat) (w0 : Nat),
      ExtHash.findRef (fun n => n) key (ExtHash.remove (fun n => n) key t).2 w0 = (false, w0) :=
  insert_then_find_and_remove_then_find (fun n => n) 5 7 1 (ExtHash.init Nat Nat 2) _
    ⟨rfl, by decide⟩ (by decide)

/-! #### Non-termination of `Insert` on fully colliding hashes (C3)

With a constant hash, bucket capacity 2 and two entries already in the
target bucket, no split ever separates the entries (every hash has every
mask bit clear), so the loop condition never becomes true. -/

theorem getD_map_range {α : Type} (n : Nat) (f : Nat → α) (d : α) (h : 0 < n) :
    ((List.range n).map f).getD 0 d = f 0 := by
  rw [List.getD_eq_getElem _ d (by simpa using h)]
  simp

/-- A hash state in which the bucket for every key (under the constant
hash) has capacity 2 and is filled by the two colliding entries. -/
def stuckState (s : ExtHash Nat Nat) : Prop :=
  s.bucketSize = 2 ∧ 0 < s.buckets.length ∧
  s.buckets.getD 0 0 < s.store.length ∧
  (s.store.getD (s.buckets.getD 0 0) default).kmap = [(1, 10), (2, 20)]

theorem constHash_getIdx {V : Type} (s : ExtHash Nat V) (key : Nat) :
    getIdx (fun _ => 0) s key = 0 := by
  simp [getIdx]

theorem stuckState_not_done (s : ExtHash Nat Nat) (hQ : stuckState s) :
    ¬((s.store.getD (s.buckets.getD (getIdx (fun _ => 0) s 3) 0) default).kmap.length <
        s.bucketSize ∨
      (alookup 3
        (s.store.getD (s.buckets.getD (getIdx (fun _ => 0) s 3) 0) default).kmap).isSome =
        true) := by
  obtain ⟨hsz, hpos, hbid, hmap⟩ := hQ
  rw [constHash_getIdx, hmap, hsz]
  simp [alookup]

theorem stuckState_split (s : ExtHash Nat Nat) (hQ : stuckState s) :
    stuckState (splitStep (fun _ => 0) 3 s) := by
  obtain ⟨hsz, hpos, hbid, hmap⟩ := hQ
  have hkept : ∀ m : Nat,
      List.filter (fun e : Nat × Nat => ! Nat.testBit ((fun _ : Nat => 0) e.1) m)
        [(1, 10), (2, 20)] = [(1, 10), (2, 20)] := by
    intro m
    simp [Nat.zero_testBit]
  have hdir1len : ∀ (c : Prop) [Decidable c],
      0 < (if c then s.buckets ++ s.buckets else s.buckets).length := by
    intro c hc
    by_cases h : c
    · rw [if_pos h, List.length_append]; omega
    · rw [if_neg h]; exact hpos
  have hdir1get : ∀ (c : Prop) [Decidable c],
      (if c then s.buckets ++ s.buckets else s.buckets).getD 0 0 = s.buckets.getD 0 0 := by
    intro c hc
    by_cases h : c
    · rw [if_pos h]; exact getD_append_left _ _ 0 0 hpos
    · rw [if_neg h]
  refine ⟨?_, ?_, ?_, ?_⟩
  · simpa [splitStep, splitBucket] using hsz
  · simp only [splitStep, splitBucket, List.length_map, List.length_range]
    exact hdir1len _
  · simp only [splitStep, splitBucket]
    rw [getD_map_range _ _ 0 (by simpa [List.length_map, List.length_range] using hdir1len _)]
    rw [constHash_getIdx]
    rw [hdir1get]
    rw [if_neg (by simp [Nat.zero_testBit])]
    simp only [List.length_append, List.length_set, List.length_cons, List.length_nil]
    omega
  · simp only [splitStep, splitBucket]
    rw [getD_map_range _ _ 0 (by simpa [List.length_map, List.length_range] using hdir1len _)]
    rw [constHash_getIdx]
    rw [hdir1get]
    rw [if_neg (by simp [Nat.zero_testBit])]
    rw [getD_append_left _ _ _ _ (by rwa [List.length_set])]
    rw [getD_set_self _ _ _ _ hbid]
    simp only [hmap]
    simp [Nat.zero_testBit]

theorem stuckState_insert_none (fuel : Nat) :
    ∀ s : ExtHash Nat Nat, stuckState s →
      insertLoop (fun _ => 0) 3 30 fuel s = none := by
  induction fuel with
  | zero => intro s _; rfl
  | succ fuel ih =>
      intro s hQ
      simp only [insertLoop]
      split
      · next hcond => exact absurd hcond (stuckState_not_done s hQ)
      · exact ih _ (stuckState_split s hQ)

/-- The table reached from the fresh capacity-2 table by inserting keys 1
and 2, whose hashes collide with everything under the constant hash. -/
def badHashState : ExtHash Nat Nat :=
  { globalDepth := 0, bucketSize := 2, bucketNum := 1,
    buckets := [0], store := [⟨0, [(1, 10), (2, 20)]⟩] }

/-- C3: with bucket capacity 2 and a hash under which all keys collide
(here the constant hash, making the three full hashes identical),
inserting keys 1 and 2 succeeds, but `Insert(3, 30)` never terminates:
for every amount of fuel the split loop is still running, because no
split can ever separate entries whose full hashes agree with the key's on
every bit.  This refutes the claim that the loop repeats until the key
fits. -/
theorem insert_identical_hashes_never_terminates :
    applyInserts (fun _ => 0) [(1, 10, 1), (2, 20, 1)] (ExtHash.init Nat Nat 2) =
      some badHashState ∧
    ∀ fuel : Nat, insertLoop (fun _ => 0) 3 30 fuel badHashState = none := by
  constructor
  · rfl
  · intro fuel
    exact stuckState_insert_none fuel badHashState ⟨rfl, by decide, by decide, rfl⟩

/-! #### LRU recency ordering (C6) -/

theorem lruState_concat {T : Type} [DecidableEq T] (ops : List (LruOp T)) (op : LruOp T) :
    lruState (ops ++ [op]) = applyLruOp (lruState ops) op := by
  simp [lruState, List.foldl_concat]

theorem mruRank_concat_ins {T : Type} [DecidableEq T] (ops : List (LruOp T)) (w v : T) :
    mruRank (ops ++ [LruOp.ins w]) v =
      if v = w then some 0 else (mruRank ops v).map (· + 1) := by
  simp [mruRank, lastInsertRank, List.reverse_append]

theorem mruRank_concat_er {T : Type} [DecidableEq T] (ops : List (LruOp T)) (w v : T) :
    mruRank (ops ++ [LruOp.er w]) v = (mruRank ops v).map (· + 1) := by
  simp [mruRank, lastInsertRank, List.reverse_append]

theorem mruRank_isSome {T : Type} [DecidableEq T] (ops : List (LruOp T)) :
    ∀ v ∈ lruState ops, (mruRank ops v).isSome = true := by
  induction ops using List.reverseRecOn with
  | nil => intro v hv; simp [lruState] at hv
  | append_singleton ops op ih =>
      intro v hv
      rw [lruState_concat] at hv
      cases op with
      | ins w =>
          rw [mruRank_concat_ins]
          by_cases hvw : v = w
          · simp [hvw]
          · simp only [applyLruOp, lruInsert, List.mem_cons] at hv
            rcases hv with h | h
            · exact absurd h hvw
            · have := ih v (List.mem_of_mem_filter h)
              simpa [hvw] using this
      | er w =>
          rw [mruRank_concat_er]
          simp only [applyLruOp, lruErase] at hv
          have := ih v (List.mem_of_mem_filter hv)
          simpa using this

/-- `a` was inserted more recently than `b` (both have a recorded insert,
and `a`'s rank from the end of the trace is strictly smaller). -/
def rankLt {T : Type} [DecidableEq T] (ops : List (LruOp T)) (a b : T) : Prop :=
  ∃ i j, mruRank ops a = some i ∧ mruRank ops b = some j ∧ i < j

theorem lruState_pairwise {T : Type} [DecidableEq T] (ops : List (LruOp T)) :
    (lruState ops).Pairwise (rankLt ops) := by
  induction ops using List.reverseRecOn with
  | nil => simp [lruState]
  | append_singleton ops op ih =>
      rw [lruState_concat]
      cases op with
      | ins w =>
          simp only [applyLruOp, lruInsert]
          refine List.Pairwise.cons ?_ ?_
          · intro b hb
            have hbw : b ≠ w := by simpa using List.of_mem_filter hb
            have hbst : b ∈ lruState ops := List.mem_of_mem_filter hb
            obtain ⟨j, hj⟩ := Option.isSome_iff_exists.mp (mruRank_isSome ops b hbst)
            refine ⟨0, j + 1, ?_, ?_, ?_⟩
            · rw [mruRank_concat_ins]; simp
            · rw [mruRank_concat_ins]; simp [hbw, hj]
            · omega
          · refine List.Pairwise.imp_of_mem ?_
              (List.Pairwise.sublist (List.filter_sublist _) ih)
            intro a b ha hb hab
            obtain ⟨i, j, hia, hjb, hij⟩ := hab
            have haw : a ≠ w := by simpa using List.of_mem_filter ha
            have hbw : b ≠ w := by simpa using List.of_mem_filter hb
            exact ⟨i + 1, j + 1, by rw [mruRank_concat_ins]; simp [haw, hia],
              by rw [mruRank_concat_ins]; simp [hbw, hjb], by omega⟩
      | er w =>
          simp only [applyLruOp, lruErase]
          refine List.Pairwise.imp_of_mem ?_
            (List.Pairwise.sublist (List.filter_sublist _) ih)
          intro a b ha hb hab
          obtain ⟨i, j, hia, hjb, hij⟩ := hab
          exact ⟨i + 1, j + 1, by rw [mruRank_concat_er]; simp [hia],
            by rw [mruRank_concat_er]; simp [hjb], by omega⟩

/-- C6: for every replacer state reached by a trace of Insert/Erase
operations from the empty replacer, `Victim` fails exactly on the empty
state; on a non-empty state it removes and outputs the tail value, which
is the least recently inserted one: every member's most recent insert is
at least as recent as the victim's. -/
theorem lruVictim_least_recently_inserted {T : Type} [DecidableEq T]
    (ops : List (LruOp T)) :
    (lruState ops = [] → lruVictim (lruState ops) = none) ∧
    ∀ (w : T) (s1 : List T), lruVictim (lruState ops) = some (w, s1) →
      s1 = (lruState ops).dropLast ∧ (lruState ops).getLast? = some w ∧
      ∀ v ∈ lruState ops, ∃ i j,
        mruRank ops v = some i ∧ mruRank ops w = some j ∧ i ≤ j := by
  constructor
  · intro h; rw [h]; rfl
  · intro w s1 hvic
    cases hst : lruState ops with
    | nil =>
        rw [hst] at hvic
        exact absurd hvic (by simp [lruVictim])
    | cons x xs =>
        rw [hst] at hvic
        have hne : x :: xs ≠ [] := List.cons_ne_nil x xs
        simp only [lruVictim] at hvic
        have h2 := Option.some.inj hvic
        injection h2 with hw hs1
        have hpw := lruState_pairwise ops
        rw [hst] at hpw
        have hsplit := List.dropLast_append_getLast hne
        refine ⟨hs1.symm, ?_, ?_⟩
        · rw [List.getLast?_eq_getLast_of_ne_nil hne, hw]
        · intro v hv
          rw [← hsplit] at hpw
          obtain ⟨-, -, hcross⟩ := List.pairwise_append.mp hpw
          rw [← hsplit] at hv
          rcases List.mem_append.mp hv with hvd | hvl
          · obtain ⟨i, j, hi, hj, hij⟩ :=
              hcross v hvd ((x :: xs).getLast hne) (List.mem_singleton.mpr rfl)
            exact ⟨i, j, hi, by rwa [hw] at hj, Nat.le_of_lt hij⟩
          · have hvw : v = w := (List.mem_singleton.mp hvl).trans hw
            have hmem : w ∈ lruState ops := by
              rw [hst, ← hw]
              exact List.getLast_mem hne
            obtain ⟨j, hj⟩ := Option.isSome_iff_exists.mp (mruRank_isSome ops w hmem)
            exact ⟨j, j, by rwa [hvw], hj, Nat.le_refl j⟩

/-- C6 witness: after inserting 1, 2 and then touching 1 again, the state
is `[1, 2]`; `Victim` removes 2 (inserted second, never touched again,
hence least recent) and every member's rank is at most 2's rank. -/
theorem lruVictim_least_recently_inserted_witness :
    ([1] : List Nat) = (lruState [LruOp.ins 1, LruOp.ins 2, LruOp.ins 1]).dropLast ∧
    (lruState [LruOp.ins 1, LruOp.ins 2, LruOp.ins 1]).getLast? = some 2 ∧
    ∀ v ∈ lruState [LruOp.ins 1, LruOp.ins 2, LruOp.ins 1], ∃ i j,
      mruRank [LruOp.ins 1, LruOp.ins 2, LruOp.ins 1] v = some i ∧
      mruRank [LruOp.ins 1, LruOp.ins 2, LruOp.ins 1] (2 : Nat) = some j ∧ i ≤ j :=
  (lruVictim_least_recently_inserted [LruOp.ins 1, LruOp.ins 2, LruOp.ins 1]).2 2 [1] rfl

/-! #### Counting and bit lemmas for the directory invariant (C4) -/

theorem getD_map_range2 {α : Type} (n j : Nat) (f : Nat → α) (d : α) (h : j < n) :
    ((List.range n).map f).getD j d = f j := by
  rw [List.getD_eq_getElem _ d (by simpa using h)]
  simp

theorem getD_concat_self {α : Type} (l : List α) (x d : α) :
    (l ++ [x]).getD l.length d = x := by
  rw [List.getD_eq_getElem _ d (by simp)]
  rw [List.getElem_append_right (Nat.le_refl _)]
  simp

theorem countP_range_eq_one (m r : Nat) (h : r < m) :
    (List.range m).countP (fun j => decide (j = r)) = 1 := by
  induction m with
  | zero => omega
  | succ m ih =>
      rw [List.range_succ, List.countP_append]
      by_cases hr : r = m
      · subst hr
        have hz : (List.range r).countP (fun j => decide (j = r)) = 0 := by
          apply List.countP_eq_zero.mpr
          intro a ha
          rw [List.mem_range] at ha
          simp
          omega
        simp [hz]
      · have hrm : r < m := by omega
        rw [ih hrm]
        simp
        omega

theorem count_eq_countP_range (l : List Nat) (b : Nat) :
    l.count b = (List.range l.length).countP (fun j => decide (l.getD j 0 = b)) := by
  induction l with
  | nil => rfl
  | cons x xs ih =>
      rw [List.count_cons, List.length_cons, List.range_succ_eq_map]
      rw [List.countP_cons, List.countP_map]
      have hxs : (List.countP ((fun j => decide ((x :: xs).getD j 0 = b)) ∘ Nat.succ)
          (List.range xs.length)) =
          (List.range xs.length).countP (fun j => decide (xs.getD j 0 = b)) := by
        apply List.countP_congr
        intro a _
        simp [List.getD_cons_succ]
      rw [hxs, ← ih]
      simp [beq_iff_eq, List.getD_cons_zero]

theorem countP_mod_range (m k r : Nat) (hr : r < m) :
    (List.range (m * k)).countP (fun j => decide (j % m = r)) = k := by
  induction k with
  | zero => simp
  | succ k ih =>
      have hmul : m * (k + 1) = m * k + m := by ring
      rw [hmul, List.range_add, List.countP_append, ih, List.countP_map]
      have hblk : (List.countP ((fun j => decide (j % m = r)) ∘ fun x => m * k + x)
          (List.range m)) = 1 := by
        have hc : ∀ x ∈ List.range m,
            (((fun j => decide (j % m = r)) ∘ fun x => m * k + x) x = true ↔
              (fun x : Nat => decide (x = r)) x = true) := by
          intro x hx
          rw [List.mem_range] at hx
          simp only [Function.comp, decide_eq_true_eq]
          rw [Nat.add_comm, Nat.add_mul_mod_self_left, Nat.mod_eq_of_lt hx]
        rw [List.countP_congr hc]
        exact countP_range_eq_one m r hr
      rw [hblk]

theorem mod_two_pow_succ_testBit (j L : Nat) :
    j % 2 ^ (L + 1) = j % 2 ^ L + (if Nat.testBit j L = true then 2 ^ L else 0) := by
  rw [Nat.mod_pow_succ, Nat.testBit_to_div_mod]
  rcases Nat.mod_two_eq_zero_or_one (j / 2 ^ L) with h | h
  · simp [h]
  · simp [h]

theorem mod_pow_succ_split (j L r : Nat) (hr : r < 2 ^ L) :
    (j % 2 ^ (L + 1) = r ↔ j % 2 ^ L = r ∧ Nat.testBit j L = false) ∧
    (j % 2 ^ (L + 1) = r + 2 ^ L ↔ j % 2 ^ L = r ∧ Nat.testBit j L = true) := by
  have hm := mod_two_pow_succ_testBit j L
  have hpos : 0 < 2 ^ L := Nat.pos_pow_of_pos _ (by omega)
  have hjL : j % 2 ^ L < 2 ^ L := Nat.mod_lt _ hpos
  cases htb : Nat.testBit j L <;> rw [htb] at hm <;> simp at hm ⊢ <;> omega

theorem getD_set_concat {α : Type} (l : List α) (i : Nat) (a x d : α) :
    ((l.set i a) ++ [x]).getD l.length d = x := by
  have h := getD_concat_self (l.set i a) x d
  rwa [List.length_set] at h

/-! #### The directory invariant of the extendible hash (C4)

The invariant strengthens the claim: the slots referencing a bucket are
exactly the directory indices congruent to a fixed residue modulo
`2^localDepth`, which makes their number `2^(globalDepth − localDepth)`. -/

/-- The slots referencing bucket `bid` are exactly the indices with a
fixed residue modulo `2^localDepth`. -/
def slotChar {K V : Type} (s : ExtHash K V) (bid : Nat) : Prop :=
  ∃ r, r < 2 ^ (s.store.getD bid default).localDepth ∧
    ∀ j, j < s.buckets.length →
      (s.buckets.getD j 0 = bid ↔ j % 2 ^ (s.store.getD bid default).localDepth = r)

/-- The full directory invariant. -/
def Inv {K V : Type} (s : ExtHash K V) : Prop :=
  dirWF s ∧ ∀ bid ∈ s.buckets,
    (s.store.getD bid default).localDepth ≤ s.globalDepth ∧ slotChar s bid

/-- A residue characterization on a directory survives doubling. -/
theorem char_double (l : List Nat) (g Lc rc c : Nat)
    (hlen : l.length = 2 ^ g) (hLg : Lc ≤ g)
    (hchar : ∀ j, j < l.length → (l.getD j 0 = c ↔ j % 2 ^ Lc = rc)) :
    ∀ j, j < (l ++ l).length → ((l ++ l).getD j 0 = c ↔ j % 2 ^ Lc = rc) := by
  intro j hj
  rw [List.length_append] at hj
  have hgpos : 0 < 2 ^ g := Nat.pos_pow_of_pos _ (by omega)
  have hjm : j % 2 ^ g < 2 ^ g := Nat.mod_lt _ hgpos
  rw [getD_self_append l j 0 hj, hlen]
  rw [hchar (j % 2 ^ g) (by rw [hlen]; exact hjm)]
  rw [Nat.mod_mod_of_dvd _ (pow_dvd_pow 2 hLg)]

/-- Effect of the slot-rewrite loop of a split on the residue
characterizations: the old bucket keeps the indices with residue `r`
modulo `2^(L+1)`, the new bucket takes those with residue `r + 2^L`, and
every other bucket keeps its slots unchanged. -/
theorem dirRewrite_char (dir1 : List Nat) (bid newId L r : Nat)
    (hA : ∀ b ∈ dir1, b < newId)
    (hB : r < 2 ^ L)
    (hC : ∀ j, j < dir1.length → (dir1.getD j 0 = bid ↔ j % 2 ^ L = r)) :
    ∀ j, j < dir1.length →
      (((List.range dir1.length).map fun j =>
          if dir1.getD j 0 = bid ∧ Nat.testBit j L then newId
          else dir1.getD j 0).getD j 0 = bid ↔ j % 2 ^ (L + 1) = r) ∧
      (((List.range dir1.length).map fun j =>
          if dir1.getD j 0 = bid ∧ Nat.testBit j L then newId
          else dir1.getD j 0).getD j 0 = newId ↔ j % 2 ^ (L + 1) = r + 2 ^ L) ∧
      ∀ b, b ≠ bid → b ≠ newId →
        (((List.range dir1.length).map fun j =>
            if dir1.getD j 0 = bid ∧ Nat.testBit j L then newId
            else dir1.getD j 0).getD j 0 = b ↔ dir1.getD j 0 = b) := by
  intro j hj
  have hfj := getD_map_range2 dir1.length j
    (fun j => if dir1.getD j 0 = bid ∧ Nat.testBit j L then newId else dir1.getD j 0) 0 hj
  dsimp only at hfj
  have hms := mod_pow_succ_split j L r hB
  have hdmem : dir1.getD j 0 ∈ dir1 := getD_mem dir1 j 0 hj
  have hdlt : dir1.getD j 0 < newId := hA _ hdmem
  by_cases hc : dir1.getD j 0 = bid ∧ Nat.testBit j L = true
  · obtain ⟨hc1, hc2⟩ := hc
    have hbidlt : bid < newId := hc1 ▸ hdlt
    have hjr : j % 2 ^ L = r := (hC j hj).mp hc1
    rw [hfj, if_pos ⟨hc1, hc2⟩]
    refine ⟨?_, ?_, ?_⟩
    · refine iff_of_false (by omega) ?_
      intro h
      have h2 := (hms.1.mp h).2
      rw [hc2] at h2
      exact Bool.noConfusion h2
    · exact iff_of_true rfl (hms.2.mpr ⟨hjr, hc2⟩)
    · intro b hbbid hbnew
      refine iff_of_false (fun h => hbnew h.symm) ?_
      intro h
      exact hbbid (h.symm.trans hc1)
  · rw [hfj, if_neg hc]
    refine ⟨?_, ?_, ?_⟩
    · constructor
      · intro h1
        have hjr := (hC j hj).mp h1
        have htb : Nat.testBit j L = false := by
          cases htb2 : Nat.testBit j L
          · rfl
          · exact absurd ⟨h1, htb2⟩ hc
        exact hms.1.mpr ⟨hjr, htb⟩
      · intro h2
        exact (hC j hj).mpr (hms.1.mp h2).1
    · refine iff_of_false (by omega) ?_
      intro h2
      obtain ⟨hjr, htb⟩ := hms.2.mp h2
      exact hc ⟨(hC j hj).mpr hjr, htb⟩
    · intro b hbbid hbnew
      exact Iff.rfl

/-- The state built by one split satisfies the invariant, given the
residue characterizations on the (possibly already doubled) directory
`dir1` and depth bounds for the new global depth `g1`. -/
theorem inv_of_rewrite {K V : Type} (s : ExtHash K V) (bid : Nat) (g1 L r : Nat)
    (dir1 : List Nat) (B1 B2 : Bucket K V)
    (hg1len : dir1.length = 2 ^ g1)
    (hLg1 : L + 1 ≤ g1)
    (hB1 : B1.localDepth = L + 1) (hB2 : B2.localDepth = L + 1)
    (hA : ∀ b ∈ dir1, b < s.store.length)
    (hbidlt : bid < s.store.length)
    (hr : r < 2 ^ L)
    (hchar1 : ∀ j, j < dir1.length → (dir1.getD j 0 = bid ↔ j % 2 ^ L = r))
    (hother : ∀ c ∈ dir1, c ≠ bid →
      (s.store.getD c default).localDepth ≤ g1 ∧
      ∃ rc, rc < 2 ^ (s.store.getD c default).localDepth ∧
        ∀ j, j < dir1.length →
          (dir1.getD j 0 = c ↔ j % 2 ^ (s.store.getD c default).localDepth = rc)) :
    Inv { globalDepth := g1, bucketSize := s.bucketSize, bucketNum := s.bucketNum + 1,
          buckets := (List.range dir1.length).map fun j =>
            if dir1.getD j 0 = bid ∧ Nat.testBit j L then s.store.length
            else dir1.getD j 0,
          store := s.store.set bid B1 ++ [B2] } := by
  have hmain := dirRewrite_char dir1 bid s.store.length L r hA hr hchar1
  have hstore_bid : (s.store.set bid B1 ++ [B2]).getD bid default = B1 := by
    rw [getD_append_left _ _ _ _ (by rw [List.length_set]; exact hbidlt)]
    exact getD_set_self _ _ _ _ hbidlt
  have hstore_new : (s.store.set bid B1 ++ [B2]).getD s.store.length default = B2 :=
    getD_set_concat s.store bid B1 B2 default
  have hstore_other : ∀ c, c ≠ bid → c < s.store.length →
      (s.store.set bid B1 ++ [B2]).getD c default = s.store.getD c default := by
    intro c hc hclt
    rw [getD_append_left _ _ _ _ (by rw [List.length_set]; exact hclt)]
    exact getD_set_ne _ _ _ _ _ (fun h => hc h.symm)
  constructor
  · constructor
    · simp only [List.length_map, List.length_range]
      exact hg1len
    · intro b hb
      simp only [List.mem_map, List.mem_range] at hb
      obtain ⟨j, hj, hfb⟩ := hb
      simp only [List.length_append, List.length_set, List.length_cons, List.length_nil]
      split at hfb
      · omega
      · have := hA _ (hfb ▸ getD_mem dir1 j 0 hj)
        omega
  · intro b hb
    simp only [List.mem_map, List.mem_range] at hb
    obtain ⟨j0, hj0, hfb0⟩ := hb
    by_cases hbbid : b = bid
    · subst hbbid
      refine ⟨?_, ?_⟩
      · simp only [hstore_bid, hB1]
        exact hLg1
      · refine ⟨r, ?_, ?_⟩
        · simp only [hstore_bid, hB1]
          rw [pow_succ]
          omega
        · intro j hj
          simp only [List.length_map, List.length_range] at hj
          simp only [hstore_bid, hB1]
          exact (hmain j hj).1
    · by_cases hbnew : b = s.store.length
      · subst hbnew
        refine ⟨?_, ?_⟩
        · simp only [hstore_new, hB2]
          exact hLg1
        · refine ⟨r + 2 ^ L, ?_, ?_⟩
          · simp only [hstore_new, hB2]
            rw [pow_succ]
            omega
          · intro j hj
            simp only [List.length_map, List.length_range] at hj
            simp only [hstore_new, hB2]
            exact (hmain j hj).2.1
      · have hbdir : b ∈ dir1 := by
          by_cases hc : dir1.getD j0 0 = bid ∧ Nat.testBit j0 L = true
          · rw [if_pos hc] at hfb0
            exact absurd hfb0.symm hbnew
          · rw [if_neg hc] at hfb0
            exact hfb0 ▸ getD_mem dir1 j0 0 hj0
        obtain ⟨hLc, rc, hrc, hcharc⟩ := hother b hbdir hbbid
        have hblt : b < s.store.length := hA b hbdir
        refine ⟨?_, ?_⟩
        · simp only [hstore_other b hbbid hblt]
          exact hLc
        · refine ⟨rc, ?_, ?_⟩
          · simp only [hstore_other b hbbid hblt]
            exact hrc
          · intro j hj
            simp only [List.length_map, List.length_range] at hj
            simp only [hstore_other b hbbid hblt]
            rw [(hmain j hj).2.2 b hbbid hbnew]
            exact hcharc j hj

/-- One split of a directory-referenced bucket preserves the invariant. -/
theorem splitBucket_inv {K V : Type} (hash : K → Nat) (s : ExtHash K V) (bid : Nat)
    (hInv : Inv s) (hmem : bid ∈ s.buckets) : Inv (splitBucket hash s bid) := by
  obtain ⟨⟨hlen, hlt⟩, hbuck⟩ := hInv
  obtain ⟨hLg, r, hr, hchar⟩ := hbuck bid hmem
  have hbidlt : bid < s.store.length := hlt bid hmem
  by_cases hD : s.globalDepth < (s.store.getD bid default).localDepth + 1
  · have hshape : splitBucket hash s bid =
        { globalDepth := s.globalDepth + 1, bucketSize := s.bucketSize,
          bucketNum := s.bucketNum + 1,
          buckets := (List.range (s.buckets ++ s.buckets).length).map fun j =>
            if (s.buckets ++ s.buckets).getD j 0 = bid ∧
                Nat.testBit j (s.store.getD bid default).localDepth
            then s.store.length else (s.buckets ++ s.buckets).getD j 0,
          store := s.store.set bid
              ⟨(s.store.getD bid default).localDepth + 1,
                (s.store.getD bid default).kmap.filter
                  (fun e => ! Nat.testBit (hash e.1) (s.store.getD bid default).localDepth)⟩ ++
            [⟨(s.store.getD bid default).localDepth + 1,
              (s.store.getD bid default).kmap.filter
                (fun e => Nat.testBit (hash e.1) (s.store.getD bid default).localDepth)⟩] } := by
      simp only [splitBucket]
      rw [if_pos hD, if_pos hD, Nat.add_sub_cancel]
    rw [hshape]
    apply inv_of_rewrite s bid (s.globalDepth + 1) (s.store.getD bid default).localDepth r
    · rw [List.length_append, hlen, pow_succ]
      omega
    · omega
    · rfl
    · rfl
    · intro b hb
      rcases List.mem_append.mp hb with h1 | h1 <;> exact hlt b h1
    · exact hbidlt
    · exact hr
    · exact char_double s.buckets s.globalDepth _ r bid hlen hLg hchar
    · intro c hcmem hcbid
      have hc1 : c ∈ s.buckets := by
        rcases List.mem_append.mp hcmem with h1 | h1 <;> exact h1
      obtain ⟨hLcg, rc, hrc, hcharc⟩ := hbuck c hc1
      exact ⟨by omega, rc, hrc,
        char_double s.buckets s.globalDepth _ rc c hlen hLcg hcharc⟩
  · have hshape : splitBucket hash s bid =
        { globalDepth := s.globalDepth, bucketSize := s.bucketSize,
          bucketNum := s.bucketNum + 1,
          buckets := (List.range s.buckets.length).map fun j =>
            if s.buckets.getD j 0 = bid ∧
                Nat.testBit j (s.store.getD bid default).localDepth
            then s.store.length else s.buckets.getD j 0,
          store := s.store.set bid
              ⟨(s.store.getD bid default).localDepth + 1,
                (s.store.getD bid default).kmap.filter
                  (fun e => ! Nat.testBit (hash e.1) (s.store.getD bid default).localDepth)⟩ ++
            [⟨(s.store.getD bid default).localDepth + 1,
              (s.store.getD bid default).kmap.filter
                (fun e => Nat.testBit (hash e.1) (s.store.getD bid default).localDepth)⟩] } := by
      simp only [splitBucket]
      rw [if_neg hD, if_neg hD, Nat.add_sub_cancel]
    rw [hshape]
    apply inv_of_rewrite s bid s.globalDepth (s.store.getD bid default).localDepth r
    · exact hlen
    · omega
    · rfl
    · rfl
    · exact hlt
    · exact hbidlt
    · exact hr
    · exact hchar
    · intro c hcmem hcbid
      obtain ⟨hLcg, rc, hrc, hcharc⟩ := hbuck c hcmem
      exact ⟨hLcg, rc, hrc, hcharc⟩

/-- Updating only the entry map of one bucket preserves the invariant. -/
theorem inv_set_kmap {K V : Type} (s : ExtHash K V) (bid : Nat) (km : List (K × V))
    (hInv : Inv s) :
    Inv { s with
      store := s.store.set bid { s.store.getD bid default with kmap := km } } := by
  obtain ⟨⟨hlen, hlt⟩, hbuck⟩ := hInv
  have hld : ∀ b,
      (((s.store.set bid { s.store.getD bid default with kmap := km }).getD b
        default)).localDepth = (s.store.getD b default).localDepth := by
    intro b
    by_cases hb : b = bid
    · subst hb
      by_cases hblt : b < s.store.length
      · rw [getD_set_self _ _ _ _ hblt]
      · rw [List.set_eq_of_length_le (Nat.le_of_not_lt hblt)]
    · rw [getD_set_ne _ _ _ _ _ (fun h => hb h.symm)]
  refine ⟨⟨hlen, ?_⟩, ?_⟩
  · intro b hb
    rw [List.length_set]
    exact hlt b hb
  · intro b hb
    obtain ⟨hL, r, hr, hchar⟩ := hbuck b hb
    refine ⟨?_, r, ?_, ?_⟩
    · simpa only [hld b] using hL
    · simpa only [hld b] using hr
    · intro j hj
      simp only [hld b]
      exact hchar j hj

/-- `ExtendibleHash::Insert` preserves the directory invariant. -/
theorem insertLoop_inv {K V : Type} [DecidableEq K] (hash : K → Nat) (k : K) (v : V) :
    ∀ (fuel : Nat) (s s1 : ExtHash K V), Inv s →
      insertLoop hash k v fuel s = some s1 → Inv s1 := by
  intro fuel
  induction fuel with
  | zero => intro s s1 _ h; simp [insertLoop] at h
  | succ fuel ih =>
      intro s s1 hInv h
      simp only [insertLoop] at h
      split at h
      · obtain rfl := Option.some.inj h
        exact inv_set_kmap s _ _ hInv
      · have hmem : s.buckets.getD (getIdx hash s k) 0 ∈ s.buckets := by
          apply getD_mem
          rw [hInv.1.1]
          exact getIdx_lt hash s k
        exact ih _ s1 (splitBucket_inv hash s _ hInv hmem) h

/-- A sequence of inserts preserves the directory invariant. -/
theorem applyInserts_inv {K V : Type} [DecidableEq K] (hash : K → Nat) :
    ∀ (ops : List (K × V × Nat)) (s s1 : ExtHash K V), Inv s →
      applyInserts hash ops s = some s1 → Inv s1 := by
  intro ops
  induction ops with
  | nil =>
      intro s s1 h hh
      simp only [applyInserts] at hh
      exact (Option.some.inj hh) ▸ h
  | cons e rest ih =>
      intro s s1 h hh
      obtain ⟨k, v, fuel⟩ := e
      simp only [applyInserts] at hh
      cases hins : insertLoop hash k v fuel s with
      | none => rw [hins] at hh; exact Option.noConfusion hh
      | some s2 =>
          rw [hins] at hh
          exact ih s2 s1 (insertLoop_inv hash k v fuel s s2 h hins) hh

/-- The freshly constructed single-bucket table satisfies the invariant. -/
theorem inv_init {K V : Type} (size : Nat) : Inv (ExtHash.init K V size) := by
  refine ⟨⟨rfl, ?_⟩, ?_⟩
  · intro b hb
    simp only [ExtHash.init, List.mem_singleton] at hb
    subst hb
    simp [ExtHash.init]
  · intro bid hb
    simp only [ExtHash.init, List.mem_singleton] at hb
    subst hb
    refine ⟨by simp [ExtHash.init], 0, by simp [ExtHash.init], ?_⟩
    intro j hj
    simp only [ExtHash.init, List.length_singleton] at hj
    have hj0 : j = 0 := by omega
    subst hj0
    simp [ExtHash.init]

/-- C4: after every terminating sequence of `Insert` operations from the
initial single-bucket state, the directory length equals
`2^globalDepth`, every directory-referenced bucket has
`localDepth ≤ globalDepth`, and the number of directory slots referencing
it is exactly `2^(globalDepth − localDepth)`. -/
theorem extHash_directory_invariant {K V : Type} [DecidableEq K] (hash : K → Nat)
    (ops : List (K × V × Nat)) (size : Nat) (s : ExtHash K V)
    (h : applyInserts hash ops (ExtHash.init K V size) = some s) :
    s.buckets.length = 2 ^ s.globalDepth ∧
    ∀ bid ∈ s.buckets,
      (s.store.getD bid default).localDepth ≤ s.globalDepth ∧
      s.buckets.count bid =
        2 ^ (s.globalDepth - (s.store.getD bid default).localDepth) := by
  have hInv := applyInserts_inv hash ops _ s (inv_init size) h
  obtain ⟨⟨hlen, hlt⟩, hbuck⟩ := hInv
  refine ⟨hlen, ?_⟩
  intro bid hb
  obtain ⟨hL, r, hr, hchar⟩ := hbuck bid hb
  refine ⟨hL, ?_⟩
  rw [count_eq_countP_range]
  have hcong : ∀ x ∈ List.range s.buckets.length,
      ((fun j => decide (s.buckets.getD j 0 = bid)) x = true ↔
        (fun j => decide (j % 2 ^ (s.store.getD bid default).localDepth = r)) x = true) := by
    intro x hx
    rw [List.mem_range] at hx
    simp only [decide_eq_true_eq]
    exact hchar x hx
  rw [List.countP_congr hcong]
  have hms : 2 ^ s.globalDepth =
      2 ^ (s.store.getD bid default).localDepth *
        2 ^ (s.globalDepth - (s.store.getD bid default).localDepth) := by
    rw [← pow_add]
    congr 1
    omega
  rw [hlen, hms]
  exact countP_mod_range _ _ r hr

/-- The table reached from the fresh capacity-2 table (identity hash) by
inserting keys 0, 2 and 1: one split has happened, the global depth is 1
and the directory has two buckets. -/
def demoHashState : ExtHash Nat Nat :=
  { globalDepth := 1, bucketSize := 2, bucketNum := 2,
    buckets := [0, 1],
    store := [⟨1, [(0, 1), (2, 2)]⟩, ⟨1, [(1, 3)]⟩] }

/-- C4 witness: the directory invariant at the concrete table reached by
inserting keys 0, 2 and 1 with the identity hash into a fresh capacity-2
table. -/
theorem extHash_directory_invariant_witness :
    demoHashState.buckets.length = 2 ^ demoHashState.globalDepth ∧
    ∀ bid ∈ demoHashState.buckets,
      (demoHashState.store.getD bid default).localDepth ≤ demoHashState.globalDepth ∧
      demoHashState.buckets.count bid =
        2 ^ (demoHashState.globalDepth -
          (demoHashState.store.getD bid default).localDepth) :=
  extHash_directory_invariant (fun n => n) [(0, 1, 5), (2, 2, 5), (1, 3, 5)] 2
    demoHashState (by decide)

end Scudb
